import Mathlib

/-!
Shallow embedding of the staging-and-aggregation engine of
cannon-safe-app-backend (`src/index.ts`), the POST `/:chainId/:safeAddress`
handler and the in-memory transaction store it mutates.

Modelling conventions:
* A `SafeTransaction` mirrors the TypeScript record; the JS `number` nonce
  field `_nonce` is an `Int`.
* Signatures are the hex strings carried in the request body (`sigs: string[]`);
  `_.union` in the source deduplicates these raw strings.
* The per-safe `Map<string, StagedTransaction>` is a `Store`: an association
  list in insertion order, since a JS `Map` preserves insertion order, `set`
  on an existing key keeps its position, and `delete` removes in place.
* External library / RPC calls (`encodeTransactionData` + `keccak256`,
  `getBytes`, `recoverAddress`, `checkNSignatures`, provider lookup) are the
  fields of a `ChainOracle`; `Option` results model a thrown exception, which
  the outer try/catch of the handler maps to the opaque HTTP 500.
* `safe.nonce()` is the per-call argument `currentNonce`.
-/

structure SafeTransaction where
  /-- the source field `to` (a reserved token here). -/
  toAddr : String
  value : String
  data : String
  operation : String
  safeTxGas : String
  baseGas : String
  gasPrice : String
  gasToken : String
  refundReceiver : String
  _nonce : Int
deriving DecidableEq, Repr

structure StagedTransaction where
  txn : SafeTransaction
  sigs : List String
deriving DecidableEq, Repr

/-- arbitrary limits to harden the server a bit (source line 30) -/
def MAX_SIGS : Nat := 100

/-- arbitrary limits to harden the server a bit (source line 31) -/
def MAX_TXNS_STAGED : Nat := 100

/-- arbitrary limits to harden the server a bit (source line 32) -/
def MAX_TXDATA_SIZE : Nat := 1000000

/-- The per-safe staged-transaction map `Map<string, StagedTransaction>`,
as an association list from digest to staged transaction in insertion order. -/
abbrev Store := List (String × StagedTransaction)

/-- `txs.get(digest)` on a JS `Map`. -/
def storeGet (s : Store) (k : String) : Option StagedTransaction :=
  (s.find? (fun p => p.1 == k)).map Prod.snd

/-- `txs.set(digest, v)` on a JS `Map`: replaces in place when the key is
present, appends otherwise. -/
def storeSet (s : Store) (k : String) (v : StagedTransaction) : Store :=
  if s.any (fun p => p.1 == k) then
    s.map (fun p => if p.1 == k then (k, v) else p)
  else s ++ [(k, v)]

/-- The external calls the handler makes (ethers.js + the Safe contract).
`none` models a thrown exception caught by the outer catch of the handler. -/
structure ChainOracle where
  /-- `getProvider(chainId) !== null` (source lines 114-118). -/
  chainSupported : Bool
  /-- `keccak256(await safe.encodeTransactionData(...txn fields))`
  (source lines 125-138): the digest, a deterministic function of the
  transaction fields; `none` models a thrown RPC error. -/
  digestOf : SafeTransaction → Option String
  /-- `ethers.getBytes(signature)` (source line 170); `none` models a throw on
  a hex string that is not decodable. -/
  sigBytes : String → Option (List Nat)
  /-- `ethers.recoverAddress(ethers.hashMessage(ethers.getBytes(digest)), bytes)`
  (source lines 177-181), taking the digest and the (normalized) signature
  bytes; `none` models a throw on a wrong-length signature. -/
  recover : String → List Nat → Option String
  /-- `await safe.checkNSignatures(digest, hashData, concat(sigs), sigs.length)`
  (source lines 192-197): `false` models the contract call reverting, which the
  inner catch maps to the 400 "invalid signature" response. -/
  checkNSignatures : String → List String → Bool

/-- Source lines 172-175: "for some reason its often necessary to adjust the
version field -4 if its above 30" — if the last byte exceeds 30, subtract 4.
(`_.last` of an empty array is `undefined`, and `undefined > 30` is false,
so empty byte strings pass through unchanged.) -/
def normalizeSig (bytes : List Nat) : List Nat :=
  match bytes.getLast? with
  | none => bytes
  | some b => if b > 30 then bytes.dropLast ++ [b - 4] else bytes

/-- JS `String.prototype.toLowerCase()` on the ASCII hex addresses ethers
returns: lower-case each character. -/
def jsToLower (s : String) : String := String.mk (s.data.map Char.toLower)

/-- The sort key computed by the comparator at source lines 169-183:
decode the signature to bytes, normalize the trailing version byte, recover
the signer address against the message hash of the digest, lower-case it.
`none` models the comparator throwing. -/
def recoverKey (o : ChainOracle) (digest sg : String) : Option String := do
  let bytes ← o.sigBytes sg
  let addr ← o.recover digest (normalizeSig bytes)
  pure (jsToLower addr)

/-- `_.union(a, b)`: concatenation deduplicated by SameValueZero (here: string)
equality, keeping first occurrences in order. -/
def jsUnion (a b : List String) : List String :=
  (a ++ b).foldl (fun acc x => if acc.contains x then acc else acc ++ [x]) []

/-- One step of a stable insertion sort: the new element goes after every
element whose key is ≤ its own, which is how `_.sortBy` (a stable sort)
orders ties — by original position. -/
def stableInsert {α κ : Type} (le : κ → κ → Bool) (p : κ × α) :
    List (κ × α) → List (κ × α)
  | [] => [p]
  | q :: rest => if le q.1 p.1 then q :: stableInsert le p rest else p :: q :: rest

/-- Stable sort of key/value pairs ascending by key. -/
def sortPairs {α κ : Type} (le : κ → κ → Bool) (l : List (κ × α)) :
    List (κ × α) :=
  l.foldl (fun acc p => stableInsert le p acc) []

/-- Lexicographic order on character lists by code unit. -/
def charListLe : List Char → List Char → Bool
  | [], _ => true
  | _ :: _, [] => false
  | a :: as, b :: bs =>
    if a.toNat < b.toNat then true
    else if b.toNat < a.toNat then false
    else charListLe as bs

/-- String comparison used by `_.sortBy` (lodash `compareAscending` compares
the computed keys with the JS `<` operator, which on strings is lexicographic
by UTF-16 code unit; recovered addresses are ASCII). -/
def strLe (a b : String) : Bool := charListLe a.data b.data

/-- Source lines 167-184:
`signedTransactionInfo.sigs = _.sortBy(_.union(incoming, existing), comparator)`.
`_.sortBy` first maps the iteratee over every element (so a throwing recovery
anywhere aborts the whole request), then stable-sorts by the computed key. -/
def mergeSigs (o : ChainOracle) (digest : String)
    (incoming existing : List String) : Option (List String) :=
  match (jsUnion incoming existing).mapM
      (fun sg => (recoverKey o digest sg).map (fun k => (k, sg))) with
  | none => none
  | some keyed => some ((sortPairs strLe keyed).map Prod.snd)

/-- `tx.txn._nonce === n` scan over the values of the staged map (source
lines 156-158). -/
def hasStagedNonce (txs : Store) (n : Int) : Bool :=
  txs.any (fun p => p.2.txn._nonce == n)

/-- The garbage-collection loop at source lines 206-213: delete every entry
whose nonce is below the current on-chain nonce, and every entry that is a
different object from the just-written one (`t !== signedTransactionInfo`,
i.e. stored under a key other than `digest`, since the entry at `digest` was
just set to that very object and all other entries predate the freshly
parsed body of this request) but whose `txn` is deep-equal to the just-written one. -/
def gcPass (cn : Int) (digest : String) (newTx : StagedTransaction)
    (txs : Store) : Store :=
  txs.filter (fun p =>
    !(decide (p.2.txn._nonce < cn) || (!(p.1 == digest) && decide (p.2.txn = newTx.txn))))

/-- lodash `compareAscending` restricted to the values that occur at source
line 217: the sort key `t._nonce` reads a field that does not exist on
`StagedTransaction` (the nonce of the transaction lives at `t.txn._nonce`; the GET
handler at line 96 uses that correctly), so in JS every key is `undefined` —
modelled as `none`. `undefined` keys compare equal to each other, and sort
after defined keys in ascending order. -/
def jsNonceLe : Option Int → Option Int → Bool
  | some a, some b => decide (a ≤ b)
  | some _, none => true
  | none, some _ => false
  | none, none => true

/-- Source line 217: `_.sortBy(Array.from(txs.values()), (t) => t._nonce)`.
Since `StagedTransaction` has no `_nonce` property, every key is `undefined`
(`none`) and the stable sort returns the values in map insertion order. -/
def postResponse (txs : Store) : List StagedTransaction :=
  (sortPairs jsNonceLe
    (txs.map (fun p => ((none : Option Int), p.2)))).map Prod.snd

/-- The error responses the POST handler can produce, one constructor per
distinct response body in the source. -/
inductive StageError where
  /-- 400 "invalid chain id or safe address" (source lines 104-106). -/
  | invalidParams
  /-- 400 "txn too large" (source lines 108-110). -/
  | txnTooLarge
  /-- 400 "chain id not supported" (source lines 116-118). -/
  | chainNotSupported
  /-- 400 "maximum staged signatures for this safe" (source lines 145-147). -/
  | tooManyStaged
  /-- 400 "proposed nonce is lower than current safe nonce" (source 150-152). -/
  | nonceTooLow
  /-- 400 "proposed nonce is higher than current safe nonce with missing
  staged" (source lines 154-163). -/
  | nonceGap
  /-- 400 "maximum signatures reached for transaction" (source 186-188). -/
  | tooManySignatures
  /-- 400 "invalid signature": `checkNSignatures` reverted (source 198-201). -/
  | invalidSignature
  /-- 500 "unexpected error, please check server logs": the outer catch-all
  (source lines 218-221). -/
  | internalError
deriving DecidableEq, Repr

/-- What the handler sends back: the response list on 200, an error otherwise. -/
inductive Outcome where
  | ok (txns : List StagedTransaction)
  | err (e : StageError)
deriving DecidableEq, Repr

def Outcome.isOk : Outcome → Bool
  | .ok _ => true
  | .err _ => false

/-- Source lines 191-217: `checkNSignatures` gate, commit (`txs.set`),
garbage collection, and the response. The check runs before the write, so a
reverting check leaves the map untouched. -/
def commitPhase (o : ChainOracle) (cn : Int) (txs : Store) (digest : String)
    (tx : StagedTransaction) : Store × Outcome :=
  if o.checkNSignatures digest tx.sigs then
    (gcPass cn digest tx (storeSet txs digest tx),
     .ok (postResponse (gcPass cn digest tx (storeSet txs digest tx))))
  else (txs, .err .invalidSignature)

/-- The body of `app.post("/:chainId/:safeAddress", ...)` from line 112 on,
acting on the staged map `txs` of one safe (the handler reads and writes only this
namespace of `txdb`). Every early `return` carries the map unchanged. -/
def stagePost (o : ChainOracle) (currentNonce : Int) (txs : Store)
    (req : StagedTransaction) : Store × Outcome :=
  if !o.chainSupported then (txs, .err .chainNotSupported)
  else
    match o.digestOf req.txn with
    | none => (txs, .err .internalError)
    | some digest =>
      match storeGet txs digest with
      | none =>
        if txs.length > MAX_TXNS_STAGED then (txs, .err .tooManyStaged)
        else if req.txn._nonce < currentNonce then (txs, .err .nonceTooLow)
        else if req.txn._nonce > currentNonce ∧
            hasStagedNonce txs (req.txn._nonce - 1) = false then
          (txs, .err .nonceGap)
        else commitPhase o currentNonce txs digest req
      | some existingTx =>
        match mergeSigs o digest req.sigs existingTx.sigs with
        | none => (txs, .err .internalError)
        | some merged =>
          if merged.length > MAX_SIGS then (txs, .err .tooManySignatures)
          else commitPhase o currentNonce txs digest { req with sigs := merged }

/-- The full handler including the pre-`try` guards (source lines 101-110):
parameter validation via `parseSafeParams` and the request-size limit, both of
which run before the staged map is ever read. -/
def handlePost (paramsOk : Bool) (bodySize : Nat) (o : ChainOracle)
    (currentNonce : Int) (txs : Store) (req : StagedTransaction) :
    Store × Outcome :=
  if !paramsOk then (txs, .err .invalidParams)
  else if bodySize > MAX_TXDATA_SIZE then (txs, .err .txnTooLarge)
  else stagePost o currentNonce txs req

/-- A transaction record with the given destination and nonce, other fields
fixed (used for concrete runs). -/
def mkTxn (dest : String) (n : Int) : SafeTransaction :=
  { toAddr := dest, value := "0", data := "0x", operation := "0", safeTxGas := "0",
    baseGas := "0", gasPrice := "0", gasToken := "0", refundReceiver := "0",
    _nonce := n }

/-- A concrete oracle for closed runs: the digest is the destination field
(deterministic and injective on the transactions used below), signature bytes
are the character codes, recovery names the normalized bytes, and the
threshold check passes. -/
def testOracle : ChainOracle :=
  { chainSupported := true
    digestOf := fun t => some t.toAddr
    sigBytes := fun s => some (s.toList.map Char.toNat)
    recover := fun _ b => some (toString b)
    checkNSignatures := fun _ _ => true }

/-- The store invariant the running server maintains for each namespace: keys
are unique (the namespace is a JS `Map`) and every entry sits under the digest
of its own transaction, computed by the same oracle that serves this chain. -/
def StoreInv (o : ChainOracle) (s : Store) : Prop :=
  (s.map Prod.fst).Nodup ∧ ∀ p ∈ s, o.digestOf p.2.txn = some p.1

/-- A namespace holding 101 staged transactions under distinct digests
(reachable, since the capacity check only fires above 100 entries). -/
def bigStore101 : Store :=
  (List.range 101).map (fun i =>
    ("a" ++ toString i, { txn := mkTxn ("a" ++ toString i) 10, sigs := [] }))

/-- A namespace holding exactly 100 staged transactions under distinct
digests. -/
def bigStore100 : Store :=
  (List.range 100).map (fun i =>
    ("a" ++ toString i, { txn := mkTxn ("a" ++ toString i) 10, sigs := [] }))

/-- An oracle under which every signature recovers to the same signer
address (two differently-encoded signatures from one signer). -/
def sameSignerOracle : ChainOracle :=
  { chainSupported := true
    digestOf := fun t => some t.toAddr
    sigBytes := fun s => some (s.toList.map Char.toNat)
    recover := fun _ _ => some "0xAA"
    checkNSignatures := fun _ _ => true }

/-- An oracle under which signer recovery throws on every signature. -/
def badSigOracle : ChainOracle :=
  { chainSupported := true
    digestOf := fun t => some t.toAddr
    sigBytes := fun s => some (s.toList.map Char.toNat)
    recover := fun _ _ => none
    checkNSignatures := fun _ _ => true }

/-- The four-step run for the response-ordering claim: on-chain nonce 5
throughout; proposals at nonces 5, 6, 7 staged in order, then a fourth
distinct proposal at nonce 5 (equal to the current nonce, so accepted). -/
def c7Req1 : StagedTransaction := { txn := mkTxn "a" 5, sigs := ["s"] }

def c7Req2 : StagedTransaction := { txn := mkTxn "b" 6, sigs := ["s"] }

def c7Req3 : StagedTransaction := { txn := mkTxn "c" 7, sigs := ["s"] }

def c7Req4 : StagedTransaction := { txn := mkTxn "d" 5, sigs := ["s"] }

def c7Store1 : Store := (stagePost testOracle 5 [] c7Req1).1

def c7Store2 : Store := (stagePost testOracle 5 c7Store1 c7Req2).1

def c7Store3 : Store := (stagePost testOracle 5 c7Store2 c7Req3).1

def c7Final : Store × Outcome := stagePost testOracle 5 c7Store3 c7Req4

/-- The nonce sequence of a successful response, `none` on an error. -/
def respNonces : Outcome → Option (List Int)
  | .ok l => some (l.map (fun t => t.txn._nonce))
  | .err _ => none

/-- Is a list of integers weakly increasing? -/
def isSortedInt : List Int → Bool
  | [] => true
  | [_] => true
  | a :: b :: rest => decide (a ≤ b) && isSortedInt (b :: rest)

/-- The 100-distinct-signer signature list for the capacity witness. -/
def sigs100 : List String := (List.range 100).map (fun i => "s" ++ toString i)

/-- The sorted merge of the submission of the 101st signer into 100 staged
signatures (used by the signature-capacity witness). -/
def merged101 : List String :=
  (mergeSigs testOracle "d" ["t"] sigs100).getD []

/-- A one-entry namespace: proposal at nonce 5 under digest "a". -/
def wStoreA : Store := [("a", { txn := mkTxn "a" 5, sigs := ["s"] })]

/-- The namespace after also staging a proposal at nonce 6 under digest "b". -/
def wStoreAB : Store :=
  [("a", { txn := mkTxn "a" 5, sigs := ["s"] }),
   ("b", { txn := mkTxn "b" 6, sigs := ["s"] })]

/-- The response for `wStoreAB`. -/
def wRespAB : List StagedTransaction :=
  [{ txn := mkTxn "a" 5, sigs := ["s"] }, { txn := mkTxn "b" 6, sigs := ["s"] }]

/-- The nonce-6 submission staged on top of `wStoreA`. -/
def wReqB : StagedTransaction := { txn := mkTxn "b" 6, sigs := ["s"] }

/-- A namespace with a stale proposal: nonce 3 staged while the chain is at
nonce 5. -/
def wStoreD3 : Store := [("d", { txn := mkTxn "d" 3, sigs := ["a"] })]

/-- A second signature submission for the stale nonce-3 proposal. -/
def wReqD3 : StagedTransaction := { txn := mkTxn "d" 3, sigs := ["b"] }

/-! ### Properties of the stable sort -/

theorem stableInsert_append {α κ : Type} (le : κ → κ → Bool) (p : κ × α)
    (l : List (κ × α)) (h : ∀ q ∈ l, le q.1 p.1 = true) :
    stableInsert le p l = l ++ [p] := by
  induction l with
  | nil => rfl
  | cons q rest ih =>
    simp only [stableInsert, h q (List.mem_cons_self q rest), if_true,
      List.cons_append, List.cons.injEq, true_and]
    exact ih (fun r hr => h r (List.mem_cons_of_mem q hr))

theorem foldl_stableInsert_all_le {α κ : Type} (le : κ → κ → Bool) :
    ∀ (l acc : List (κ × α)),
    (∀ q ∈ acc ++ l, ∀ p ∈ l, le q.1 p.1 = true) →
    l.foldl (fun acc p => stableInsert le p acc) acc = acc ++ l := by
  intro l
  induction l with
  | nil => intro acc _; simp
  | cons x xs ih =>
    intro acc h
    have hins : stableInsert le x acc = acc ++ [x] :=
      stableInsert_append le x acc (fun q hq =>
        h q (List.mem_append_left _ hq) x (List.mem_cons_self x xs))
    simp only [List.foldl_cons, hins]
    rw [ih (acc ++ [x]) (fun q hq p hp => by
      refine h q ?_ p (List.mem_cons_of_mem x hp)
      simp only [List.append_assoc, List.singleton_append] at hq ⊢
      exact hq)]
    simp

theorem sortPairs_of_all_le {α κ : Type} (le : κ → κ → Bool)
    (l : List (κ × α)) (h : ∀ q ∈ l, ∀ p ∈ l, le q.1 p.1 = true) :
    sortPairs le l = l := by
  unfold sortPairs
  rw [foldl_stableInsert_all_le le l [] (by simpa using h)]
  simp

/-- Sorting the response by the nonexistent field `t._nonce` is the identity:
every key is `undefined` and the sort is stable, so map insertion order
survives to the response. -/
theorem postResponse_eq_values (txs : Store) :
    postResponse txs = txs.map Prod.snd := by
  unfold postResponse
  rw [sortPairs_of_all_le _ _ (by
    intro q hq p hp
    simp only [List.mem_map] at hq hp
    obtain ⟨a, _, rfl⟩ := hq
    obtain ⟨b, _, rfl⟩ := hp
    rfl)]
  simp

theorem stableInsert_perm {α κ : Type} (le : κ → κ → Bool) (p : κ × α)
    (l : List (κ × α)) : (stableInsert le p l).Perm (p :: l) := by
  induction l with
  | nil => exact List.Perm.refl _
  | cons q rest ih =>
    simp only [stableInsert]
    by_cases hle : le q.1 p.1
    · rw [if_pos hle]
      exact (List.Perm.cons q ih).trans (List.Perm.swap p q rest)
    · rw [if_neg hle]

theorem sortPairs_perm {α κ : Type} (le : κ → κ → Bool)
    (l : List (κ × α)) : (sortPairs le l).Perm l := by
  unfold sortPairs
  suffices h : ∀ acc : List (κ × α),
      (l.foldl (fun acc p => stableInsert le p acc) acc).Perm (acc ++ l) by
    simpa using h []
  induction l with
  | nil => intro acc; simp
  | cons x xs ih =>
    intro acc
    simp only [List.foldl_cons]
    refine (ih (stableInsert le x acc)).trans ?_
    refine (List.Perm.append_right xs (stableInsert_perm le x acc)).trans ?_
    exact List.perm_middle.symm

theorem stableInsert_sorted {α κ : Type} (le : κ → κ → Bool)
    (hTotal : ∀ a b, le a b = true ∨ le b a = true)
    (hTrans : ∀ a b c, le a b = true → le b c = true → le a c = true)
    (p : κ × α) (l : List (κ × α))
    (hl : l.Pairwise (fun q r => le q.1 r.1 = true)) :
    (stableInsert le p l).Pairwise (fun q r => le q.1 r.1 = true) := by
  induction l with
  | nil => simp [stableInsert]
  | cons q rest ih =>
    rw [List.pairwise_cons] at hl
    simp only [stableInsert]
    by_cases hle : le q.1 p.1
    · rw [if_pos hle, List.pairwise_cons]
      constructor
      · intro r hr
        have hr' := (stableInsert_perm le p rest).mem_iff.mp hr
        rcases List.mem_cons.mp hr' with h1 | h1
        · subst h1; exact hle
        · exact hl.1 r h1
      · exact ih hl.2
    · rw [if_neg hle, List.pairwise_cons]
      have hpq : le p.1 q.1 = true := by
        rcases hTotal q.1 p.1 with h1 | h1
        · exact absurd h1 hle
        · exact h1
      refine ⟨?_, List.pairwise_cons.mpr hl⟩
      intro r hr
      rcases List.mem_cons.mp hr with h1 | h1
      · subst h1; exact hpq
      · exact hTrans p.1 q.1 r.1 hpq (hl.1 r h1)

theorem sortPairs_sorted {α κ : Type} (le : κ → κ → Bool)
    (hTotal : ∀ a b, le a b = true ∨ le b a = true)
    (hTrans : ∀ a b c, le a b = true → le b c = true → le a c = true)
    (l : List (κ × α)) :
    (sortPairs le l).Pairwise (fun q r => le q.1 r.1 = true) := by
  unfold sortPairs
  suffices h : ∀ acc : List (κ × α),
      acc.Pairwise (fun q r => le q.1 r.1 = true) →
      (l.foldl (fun acc p => stableInsert le p acc) acc).Pairwise
        (fun q r => le q.1 r.1 = true) by
    exact h [] (by simp)
  induction l with
  | nil => intro acc hacc; simpa using hacc
  | cons x xs ih =>
    intro acc hacc
    simp only [List.foldl_cons]
    exact ih _ (stableInsert_sorted le hTotal hTrans x acc hacc)

theorem charListLe_total : ∀ (a b : List Char),
    charListLe a b = true ∨ charListLe b a = true := by
  intro a
  induction a with
  | nil => intro b; exact Or.inl rfl
  | cons x xs ih =>
    intro b
    cases b with
    | nil => exact Or.inr rfl
    | cons y ys =>
      simp only [charListLe]
      rcases Nat.lt_trichotomy x.toNat y.toNat with h | h | h
      · left
        rw [if_pos h]
      · rw [if_neg (by omega), if_neg (by omega), if_neg (by omega),
          if_neg (by omega)]
        exact ih ys
      · right
        rw [if_pos h]

theorem charListLe_case (x y : Char) (xs ys : List Char)
    (h : charListLe (x :: xs) (y :: ys) = true) :
    x.toNat < y.toNat ∨ (x.toNat = y.toNat ∧ charListLe xs ys = true) := by
  simp only [charListLe] at h
  by_cases h1 : x.toNat < y.toNat
  · exact Or.inl h1
  · rw [if_neg h1] at h
    by_cases h2 : y.toNat < x.toNat
    · rw [if_pos h2] at h
      exact absurd h (by simp)
    · rw [if_neg h2] at h
      exact Or.inr ⟨by omega, h⟩

theorem charListLe_trans : ∀ (a b c : List Char),
    charListLe a b = true → charListLe b c = true → charListLe a c = true := by
  intro a
  induction a with
  | nil => intro b c _ _; rfl
  | cons x xs ih =>
    intro b c h1 h2
    cases b with
    | nil => simp [charListLe] at h1
    | cons y ys =>
      cases c with
      | nil => simp [charListLe] at h2
      | cons z zs =>
        rcases charListLe_case x y xs ys h1 with hx | ⟨hx, hxr⟩ <;>
          rcases charListLe_case y z ys zs h2 with hy | ⟨hy, hyr⟩ <;>
          simp only [charListLe]
        · rw [if_pos (by omega)]
        · rw [if_pos (by omega)]
        · rw [if_pos (by omega)]
        · rw [if_neg (by omega), if_neg (by omega)]
          exact ih ys zs hxr hyr

theorem strLe_total (a b : String) : strLe a b = true ∨ strLe b a = true :=
  charListLe_total a.data b.data

theorem strLe_trans (a b c : String) (h1 : strLe a b = true)
    (h2 : strLe b c = true) : strLe a c = true :=
  charListLe_trans a.data b.data c.data h1 h2

/-! ### Properties of the raw-string union -/

theorem contains_iff_mem (l : List String) (x : String) :
    l.contains x = true ↔ x ∈ l := by
  rw [List.contains_iff_exists_mem_beq]
  simp [beq_iff_eq]

theorem mem_dedupFold (l : List String) :
    ∀ (acc : List String) (x : String),
    (x ∈ l.foldl (fun acc y => if acc.contains y then acc else acc ++ [y]) acc
      ↔ x ∈ acc ∨ x ∈ l) := by
  induction l with
  | nil => intro acc x; simp
  | cons y ys ih =>
    intro acc x
    simp only [List.foldl_cons]
    by_cases hc : acc.contains y
    · rw [if_pos hc]
      rw [ih acc x]
      constructor
      · rintro (h | h)
        · exact Or.inl h
        · exact Or.inr (List.mem_cons_of_mem y h)
      · rintro (h | h)
        · exact Or.inl h
        · rcases List.mem_cons.mp h with h1 | h1
          · exact Or.inl (by rw [h1]; exact (contains_iff_mem acc y).mp hc)
          · exact Or.inr h1
    · rw [if_neg hc]
      rw [ih (acc ++ [y]) x]
      simp only [List.mem_append, List.mem_singleton, List.mem_cons]
      tauto

theorem nodup_dedupFold (l : List String) :
    ∀ acc : List String, acc.Nodup →
    (l.foldl (fun acc y => if acc.contains y then acc else acc ++ [y]) acc).Nodup := by
  induction l with
  | nil => intro acc h; simpa using h
  | cons y ys ih =>
    intro acc hacc
    simp only [List.foldl_cons]
    by_cases hc : acc.contains y
    · rw [if_pos hc]; exact ih acc hacc
    · rw [if_neg hc]
      refine ih (acc ++ [y]) ?_
      rw [List.nodup_append]
      refine ⟨hacc, List.nodup_singleton y, ?_⟩
      intro a ha hb
      rw [List.mem_singleton] at hb
      subst hb
      exact hc (by simpa using (contains_iff_mem acc a).mpr ha)

/-- `_.union` membership: exactly the elements of either input list. -/
theorem mem_jsUnion (a b : List String) (x : String) :
    x ∈ jsUnion a b ↔ x ∈ a ∨ x ∈ b := by
  unfold jsUnion
  rw [mem_dedupFold]
  simp

/-- `_.union` deduplicates by raw string equality. -/
theorem jsUnion_nodup (a b : List String) : (jsUnion a b).Nodup := by
  unfold jsUnion
  exact nodup_dedupFold _ [] (List.nodup_nil)

/-! ### Properties of the store operations -/

theorem storeGet_eq_none_iff (s : Store) (k : String) :
    storeGet s k = none ↔ ∀ p ∈ s, p.1 ≠ k := by
  unfold storeGet
  rw [Option.map_eq_none', List.find?_eq_none]
  constructor
  · intro h p hp
    have := h p hp
    simpa using this
  · intro h p hp
    simpa using h p hp

theorem storeSet_of_fresh (s : Store) (k : String) (v : StagedTransaction)
    (h : storeGet s k = none) : storeSet s k v = s ++ [(k, v)] := by
  unfold storeSet
  rw [if_neg]
  intro hany
  rw [List.any_eq_true] at hany
  obtain ⟨p, hp, hpk⟩ := hany
  exact (storeGet_eq_none_iff s k).mp h p hp (by simpa using hpk)

theorem mem_gcPass (cn : Int) (digest : String) (v : StagedTransaction)
    (txs : Store) (p : String × StagedTransaction) :
    p ∈ gcPass cn digest v txs ↔
      p ∈ txs ∧ ¬ p.2.txn._nonce < cn ∧ (p.1 = digest ∨ p.2.txn ≠ v.txn) := by
  unfold gcPass
  rw [List.mem_filter]
  constructor
  · rintro ⟨hp, hcond⟩
    refine ⟨hp, ?_, ?_⟩
    · intro hlt
      simp [hlt] at hcond
    · by_cases hk : p.1 = digest
      · exact Or.inl hk
      · refine Or.inr ?_
        intro heq
        simp [hk, heq] at hcond
    -- hcond : !(...) = true
  · rintro ⟨hp, hnonce, hkey⟩
    refine ⟨hp, ?_⟩
    simp only [Bool.not_eq_true', Bool.or_eq_false_iff, decide_eq_false_iff_not,
      Bool.and_eq_false_iff]
    refine ⟨hnonce, ?_⟩
    rcases hkey with hk | ht
    · left
      simp [hk]
    · right
      simpa using ht

theorem gcPass_sublist (cn : Int) (digest : String) (v : StagedTransaction)
    (txs : Store) : (gcPass cn digest v txs).Sublist txs :=
  List.filter_sublist txs

/-! ### Inversion of a successful staging call -/

/-- A successful POST ran to the commit: the chain was supported, the digest
was computed, `checkNSignatures` passed on the committed signature list, the
new store is the garbage-collected post-commit map, and the call went through
either the first-submission branch (nonce rules enforced) or the merge branch
(signatures merged, size-checked). -/
theorem stagePost_ok_inv (o : ChainOracle) (cn : Int) (s : Store)
    (req : StagedTransaction) (s2 : Store) (r : List StagedTransaction)
    (h : stagePost o cn s req = (s2, .ok r)) :
    ∃ digest v, o.chainSupported = true ∧ o.digestOf req.txn = some digest ∧
      v.txn = req.txn ∧ o.checkNSignatures digest v.sigs = true ∧
      s2 = gcPass cn digest v (storeSet s digest v) ∧ r = postResponse s2 ∧
      ((storeGet s digest = none ∧ v = req ∧ ¬ req.txn._nonce < cn ∧
          s.length ≤ MAX_TXNS_STAGED) ∨
        (∃ ex merged, storeGet s digest = some ex ∧
          mergeSigs o digest req.sigs ex.sigs = some merged ∧
          v = { req with sigs := merged } ∧ merged.length ≤ MAX_SIGS)) := by
  unfold stagePost commitPhase at h
  split at h
  · simp at h
  next hcs =>
  have hcs' : o.chainSupported = true := by simpa using hcs
  split at h
  · simp at h
  next digest hdig =>
  split at h
  next hget =>
    split at h
    · simp at h
    next hcap =>
    split at h
    · simp at h
    next hlow =>
    split at h
    · simp at h
    next hgap =>
    split at h
    next hchk =>
      rw [Prod.mk.injEq, Outcome.ok.injEq] at h
      obtain ⟨h1, h2⟩ := h
      subst h1
      subst h2
      exact ⟨digest, req, hcs', hdig, rfl, hchk, rfl, rfl,
        Or.inl ⟨hget, rfl, hlow, Nat.le_of_not_lt hcap⟩⟩
    · simp at h
  next existingTx hget =>
    split at h
    · simp at h
    next merged hmerge =>
    split at h
    · simp at h
    next hsize =>
    split at h
    next hchk =>
      rw [Prod.mk.injEq, Outcome.ok.injEq] at h
      obtain ⟨h1, h2⟩ := h
      subst h1
      subst h2
      exact ⟨digest, { req with sigs := merged }, hcs', hdig, rfl, hchk, rfl, rfl,
        Or.inr ⟨existingTx, merged, hget, hmerge, rfl, Nat.le_of_not_lt hsize⟩⟩
    · simp at h

/-! ### Helper facts for the claim theorems -/

theorem handlePost_err_store (paramsOk : Bool) (bodySize : Nat)
    (o : ChainOracle) (cn : Int) (s : Store) (req : StagedTransaction)
    (s2 : Store) (e : StageError)
    (h : handlePost paramsOk bodySize o cn s req = (s2, .err e)) : s2 = s := by
  unfold handlePost stagePost commitPhase at h
  repeat' split at h
  all_goals
    first
      | (rw [Prod.mk.injEq] at h; exact h.1.symm)
      | simp at h

theorem commitPhase_snd (o : ChainOracle) (cn : Int) (txs : Store)
    (digest : String) (tx : StagedTransaction) :
    ((commitPhase o cn txs digest tx).2
        = .ok (postResponse (gcPass cn digest tx (storeSet txs digest tx)))) ∨
      (commitPhase o cn txs digest tx).2 = .err .invalidSignature := by
  unfold commitPhase
  split
  · exact Or.inl rfl
  · exact Or.inr rfl

/-! ### C2 -/

/-- C2: every stage submission that ends in any error (invalid HTTP
parameters, oversized body, unsupported chain, capacity exceeded, nonce
rejection, signature-count rejection, threshold-check failure, or the
catch-all for unexpected exceptions) leaves the per-namespace proposal store
exactly as it was before the call. -/
theorem stage_error_leaves_store_unchanged (paramsOk : Bool) (bodySize : Nat)
    (o : ChainOracle) (cn : Int) (s : Store) (req : StagedTransaction)
    (h : (handlePost paramsOk bodySize o cn s req).2.isOk = false) :
    (handlePost paramsOk bodySize o cn s req).1 = s := by
  rcases hEq : handlePost paramsOk bodySize o cn s req with ⟨s2, out⟩
  rcases out with l | e
  · rw [hEq] at h
    simp [Outcome.isOk] at h
  · simpa using handlePost_err_store paramsOk bodySize o cn s req s2 e hEq

/-- C2 witness: a rejected submission (nonce below the on-chain nonce) on a
nonempty namespace leaves the namespace untouched. -/
theorem stage_error_leaves_store_unchanged_witness :
    (handlePost true 2 testOracle 5 [("a", { txn := mkTxn "a" 5, sigs := ["s"] })]
        { txn := mkTxn "b" 3, sigs := ["s"] }).1
      = [("a", { txn := mkTxn "a" 5, sigs := ["s"] })] :=
  stage_error_leaves_store_unchanged true 2 testOracle 5
    [("a", { txn := mkTxn "a" 5, sigs := ["s"] })]
    { txn := mkTxn "b" 3, sigs := ["s"] } (by decide)

/-! ### C1 -/

/-- C1 counterexample: with 101 proposals already staged (a reachable state,
since the capacity check only fires above 100) and a fresh digest whose nonce
3 is below the current on-chain nonce 5, the call fails with the capacity
error, not with the nonce-too-low error: the capacity check at source lines
145-147 runs before the nonce checks. -/
theorem nonce_too_low_counterexample :
    storeGet bigStore101 "b" = none ∧ ((3 : Int) < 5) ∧
    stagePost testOracle 5 bigStore101 { txn := mkTxn "b" 3, sigs := [] }
      = (bigStore101, .err .tooManyStaged) := by decide

/-- C1 amended: for a fresh digest, provided the capacity check passes (at
most 100 proposals staged — it runs first), a nonce below the current
on-chain nonce fails with the nonce-too-low error and a nonce strictly above
it with no staged proposal at nonce−1 fails with the nonce-gap error; a
submission at exactly the current nonce is never rejected by either nonce
rule (its only possible rejections are the threshold check or capacity). -/
theorem nonce_rules_first_submission (o : ChainOracle) (cn : Int) (s : Store)
    (req : StagedTransaction) (digest : String)
    (hcs : o.chainSupported = true)
    (hdig : o.digestOf req.txn = some digest)
    (hget : storeGet s digest = none)
    (hcap : s.length ≤ MAX_TXNS_STAGED) :
    (req.txn._nonce < cn → stagePost o cn s req = (s, .err .nonceTooLow)) ∧
    (req.txn._nonce > cn → (∀ p ∈ s, p.2.txn._nonce ≠ req.txn._nonce - 1) →
      stagePost o cn s req = (s, .err .nonceGap)) ∧
    (req.txn._nonce = cn →
      (stagePost o cn s req).2 ≠ .err .nonceTooLow ∧
      (stagePost o cn s req).2 ≠ .err .nonceGap) := by
  have hcap' : ¬ s.length > MAX_TXNS_STAGED := Nat.not_lt.mpr hcap
  refine ⟨?_, ?_, ?_⟩
  · intro hlow
    unfold stagePost
    simp [hcs, hdig, hget, hcap', hlow]
  · intro hgt hnone
    have hlow : ¬ req.txn._nonce < cn := not_lt_of_gt hgt
    have hhas : hasStagedNonce s (req.txn._nonce - 1) = false := by
      unfold hasStagedNonce
      rw [List.any_eq_false]
      intro p hp
      simpa using hnone p hp
    unfold stagePost
    simp [hcs, hdig, hget, hcap', hlow, hgt, hhas]
  · intro heq
    have hlow : ¬ req.txn._nonce < cn := by omega
    have hgt : ¬ req.txn._nonce > cn := by omega
    unfold stagePost
    simp only [hcs, hdig, hget, Bool.not_true, Bool.false_eq_true, if_false]
    rw [if_neg hcap', if_neg hlow, if_neg (by
      intro hc
      exact hgt hc.1)]
    rcases commitPhase_snd o cn s digest req with h | h <;> rw [h] <;> simp

/-- C1 witness: at the concrete input (empty namespace, on-chain nonce 5) the
amended rules fire as stated: nonce 3 is rejected as too low, nonce 7 as a
gap, and nonce 5 is not rejected by either nonce rule. -/
theorem nonce_rules_first_submission_witness :
    stagePost testOracle 5 [] { txn := mkTxn "b" 3, sigs := ["s"] }
        = ([], .err .nonceTooLow) ∧
      stagePost testOracle 5 [] { txn := mkTxn "b" 7, sigs := ["s"] }
        = ([], .err .nonceGap) ∧
      ((stagePost testOracle 5 [] { txn := mkTxn "b" 5, sigs := ["s"] }).2
          ≠ .err .nonceTooLow ∧
        (stagePost testOracle 5 [] { txn := mkTxn "b" 5, sigs := ["s"] }).2
          ≠ .err .nonceGap) :=
  ⟨(nonce_rules_first_submission testOracle 5 [] { txn := mkTxn "b" 3, sigs := ["s"] }
      "b" rfl rfl (by decide) (by decide)).1 (by decide),
   (nonce_rules_first_submission testOracle 5 [] { txn := mkTxn "b" 7, sigs := ["s"] }
      "b" rfl rfl (by decide) (by decide)).2.1 (by decide) (by decide),
   (nonce_rules_first_submission testOracle 5 [] { txn := mkTxn "b" 5, sigs := ["s"] }
      "b" rfl rfl (by decide) (by decide)).2.2 (by decide)⟩

/-! ### C6 -/

/-- C6 counterexample: a namespace holding exactly N = 100 staged proposals
accepts the 101st distinct digest: the check at source line 145 is
`txs.size > MAX_TXNS_STAGED`, strictly greater, so size 100 passes. -/
theorem staged_capacity_counterexample :
    bigStore100.length = 100 ∧ storeGet bigStore100 "b" = none ∧
    (stagePost testOracle 10 bigStore100
        { txn := mkTxn "b" 10, sigs := ["s"] }).2.isOk = true := by decide

/-- C6 amended: a new distinct digest is rejected with the staged-capacity
error exactly when the namespace already holds strictly more than
`MAX_TXNS_STAGED` = 100 proposals, i.e. the first rejected distinct digest is
the (N+2)-th, and the rejection does not mutate the namespace. -/
theorem staged_capacity_rule (o : ChainOracle) (cn : Int) (s : Store)
    (req : StagedTransaction) (digest : String)
    (hcs : o.chainSupported = true)
    (hdig : o.digestOf req.txn = some digest)
    (hget : storeGet s digest = none)
    (hcap : s.length > MAX_TXNS_STAGED) :
    stagePost o cn s req = (s, .err .tooManyStaged) := by
  unfold stagePost
  simp [hcs, hdig, hget, hcap]

/-- C6 witness: with 101 proposals staged, the next distinct digest is
rejected with the capacity error and the namespace is unchanged. -/
theorem staged_capacity_rule_witness :
    stagePost testOracle 10 bigStore101 { txn := mkTxn "b" 10, sigs := ["s"] }
      = (bigStore101, .err .tooManyStaged) :=
  staged_capacity_rule testOracle 10 bigStore101
    { txn := mkTxn "b" 10, sigs := ["s"] } "b" rfl rfl (by decide) (by decide)

set_option maxRecDepth 10000

/-! ### C5 -/

/-- C5: when the digest already has a staged proposal, a merged signature
list longer than `MAX_SIGS` = 100 fails with the signature-capacity error and
nothing is committed: the namespace is returned unchanged. -/
theorem signature_capacity_rule (o : ChainOracle) (cn : Int) (s : Store)
    (req : StagedTransaction) (digest : String) (ex : StagedTransaction)
    (merged : List String)
    (hcs : o.chainSupported = true)
    (hdig : o.digestOf req.txn = some digest)
    (hget : storeGet s digest = some ex)
    (hmerge : mergeSigs o digest req.sigs ex.sigs = some merged)
    (hsize : merged.length > MAX_SIGS) :
    stagePost o cn s req = (s, .err .tooManySignatures) := by
  unfold stagePost
  simp [hcs, hdig, hget, hmerge, hsize]

/-- C5 witness: a digest staged with 100 distinct signers rejects the 101st
signer — the merged list has 101 entries, over the limit — leaving the staged
signatures untouched. -/
theorem signature_capacity_rule_witness :
    merged101.length = 101 ∧
    stagePost testOracle 5 [("d", { txn := mkTxn "d" 5, sigs := sigs100 })]
        { txn := mkTxn "d" 5, sigs := ["t"] }
      = ([("d", { txn := mkTxn "d" 5, sigs := sigs100 })],
         .err .tooManySignatures) :=
  ⟨by decide,
   signature_capacity_rule testOracle 5
     [("d", { txn := mkTxn "d" 5, sigs := sigs100 })]
     { txn := mkTxn "d" 5, sigs := ["t"] } "d"
     { txn := mkTxn "d" 5, sigs := sigs100 } merged101
     rfl rfl (by decide) (by decide) (by decide)⟩

/-! ### C7 -/

/-- C7 (code bug): a successful run of four accepted submissions (on-chain
nonce 5; proposals at nonces 5, 6, 7, then a fourth distinct proposal at
nonce 5) returns the staged proposals with nonce sequence [5, 6, 7, 5] — not
sorted ascending by nonce. Source line 217 sorts the response by `t._nonce`,
a property that does not exist on the staged record (every key is
`undefined`), so insertion order is returned; the GET handler at line 96
sorts the same data by `t.txn._nonce`, which is what was intended. -/
theorem response_not_sorted_by_nonce :
    c7Final.2.isOk = true ∧
    respNonces c7Final.2 = some [5, 6, 7, 5] ∧
    isSortedInt [5, 6, 7, 5] = false := by decide

/-! ### C3 -/

theorem mapM_keyed_spec (o : ChainOracle) (digest : String) :
    ∀ (u : List String) (keyed : List (String × String)),
    u.mapM (fun sg => (recoverKey o digest sg).map (fun k => (k, sg)))
        = some keyed →
    keyed.map Prod.snd = u ∧ ∀ p ∈ keyed, recoverKey o digest p.2 = some p.1 := by
  intro u
  induction u with
  | nil =>
    intro keyed h
    rw [List.mapM_nil] at h
    simp only [pure, Option.some.injEq] at h
    subst h
    simp
  | cons sg rest ih =>
    intro keyed h
    rw [List.mapM_cons] at h
    cases hk : recoverKey o digest sg with
    | none => rw [hk] at h; simp at h
    | some k =>
      rw [hk] at h
      cases hrest : rest.mapM
          (fun sg => (recoverKey o digest sg).map (fun x => (x, sg))) with
      | none => rw [hrest] at h; simp at h
      | some tail =>
        rw [hrest] at h
        simp only [Option.map_some', Option.some_bind, Option.pure_def,
          Option.bind_some, Option.bind_eq_bind, Option.some.injEq] at h
        subst h
        obtain ⟨ih1, ih2⟩ := ih tail hrest
        constructor
        · simp [ih1]
        · intro p hp
          rcases List.mem_cons.mp hp with h1 | h1
          · subst h1; exact hk
          · exact ih2 p h1

theorem mapM_keyed_none (o : ChainOracle) (digest : String) :
    ∀ u : List String, (∃ sg ∈ u, recoverKey o digest sg = none) →
    u.mapM (fun sg => (recoverKey o digest sg).map (fun k => (k, sg)))
      = none := by
  intro u
  induction u with
  | nil =>
    rintro ⟨sg, h, _⟩
    simp at h
  | cons x rest ih =>
    rintro ⟨sg, hmem, hfail⟩
    rw [List.mapM_cons]
    rcases List.mem_cons.mp hmem with h1 | h1
    · subst h1
      rw [hfail]
      simp
    · cases hx : recoverKey o digest x with
      | none => simp
      | some k =>
        rw [ih ⟨sg, h1, hfail⟩]
        simp

/-- C3 counterexample: two differently-encoded signatures recovering to the
same signer address do not collapse: the merge of incoming `"0xs2"` with
staged `"0xs1"` — both recovering to the one signer of `sameSignerOracle` —
stores both entries, because `_.union` at source line 168 deduplicates by raw
signature string, not by recovered signer. -/
theorem merge_same_signer_counterexample :
    recoverKey sameSignerOracle "d" "0xs1"
        = recoverKey sameSignerOracle "d" "0xs2" ∧
    ("0xs1" : String) ≠ "0xs2" ∧
    mergeSigs sameSignerOracle "d" ["0xs2"] ["0xs1"]
        = some ["0xs2", "0xs1"] ∧
    (stagePost sameSignerOracle 5
        [("d", { txn := mkTxn "d" 5, sigs := ["0xs1"] })]
        { txn := mkTxn "d" 5, sigs := ["0xs2"] }).1
      = [("d", { txn := mkTxn "d" 5, sigs := ["0xs2", "0xs1"] })] := by decide

/-- C3 amended: for a digest that already has a staged proposal, the merged
signature list is the union of incoming and existing keyed by the raw
signature string (its members are exactly the signatures of either list, with
no duplicate raw string; same-signer signatures with different encodings stay
distinct) and it is stably sorted ascending by the lower-cased recovered
signer address. -/
theorem merge_by_raw_string_sorted (o : ChainOracle) (s : Store)
    (req : StagedTransaction) (digest : String) (ex : StagedTransaction)
    (merged : List String)
    (hget : storeGet s digest = some ex)
    (hmerge : mergeSigs o digest req.sigs ex.sigs = some merged) :
    merged.Perm (jsUnion req.sigs ex.sigs) ∧
    (∀ x, x ∈ merged ↔ x ∈ req.sigs ∨ x ∈ ex.sigs) ∧
    merged.Nodup ∧
    merged.Pairwise (fun x y => ∀ kx ky, recoverKey o digest x = some kx →
      recoverKey o digest y = some ky → strLe kx ky = true) := by
  unfold mergeSigs at hmerge
  cases hkeyed : (jsUnion req.sigs ex.sigs).mapM
      (fun sg => (recoverKey o digest sg).map (fun k => (k, sg))) with
  | none => rw [hkeyed] at hmerge; simp at hmerge
  | some keyed =>
    rw [hkeyed] at hmerge
    simp only [Option.some.injEq] at hmerge
    obtain ⟨hsnd, hkeys⟩ := mapM_keyed_spec o digest _ keyed hkeyed
    subst hmerge
    have hperm : (sortPairs strLe keyed).Perm keyed := sortPairs_perm _ _
    have hpermSnd :
        ((sortPairs strLe keyed).map Prod.snd).Perm (jsUnion req.sigs ex.sigs) := by
      have := hperm.map Prod.snd
      rwa [hsnd] at this
    refine ⟨hpermSnd, ?_, ?_, ?_⟩
    · intro x
      rw [hpermSnd.mem_iff, mem_jsUnion]
    · exact hpermSnd.nodup_iff.mpr (jsUnion_nodup _ _)
    · have hsorted := sortPairs_sorted strLe strLe_total strLe_trans keyed
      rw [List.pairwise_map]
      refine hsorted.imp_of_mem ?_
      intro p q hp hq hle kx ky hkx hky
      have hp' : recoverKey o digest p.2 = some p.1 :=
        hkeys p (hperm.mem_iff.mp hp)
      have hq' : recoverKey o digest q.2 = some q.1 :=
        hkeys q (hperm.mem_iff.mp hq)
      rw [hp'] at hkx
      rw [hq'] at hky
      obtain rfl : p.1 = kx := by simpa using hkx
      obtain rfl : q.1 = ky := by simpa using hky
      exact hle

/-- C3 witness: merging incoming signature "a" into staged signature "b"
under the test oracle yields ["a", "b"]: a permutation of the raw-string
union, duplicate-free, and sorted by recovered signer key. -/
theorem merge_by_raw_string_sorted_witness :
    (["a", "b"] : List String).Perm (jsUnion ["a"] ["b"]) ∧
    (∀ x, x ∈ (["a", "b"] : List String) ↔ x ∈ ["a"] ∨ x ∈ ["b"]) ∧
    (["a", "b"] : List String).Nodup ∧
    (["a", "b"] : List String).Pairwise (fun x y => ∀ kx ky,
      recoverKey testOracle "d" x = some kx →
      recoverKey testOracle "d" y = some ky → strLe kx ky = true) :=
  merge_by_raw_string_sorted testOracle
    [("d", { txn := mkTxn "d" 5, sigs := ["b"] })]
    { txn := mkTxn "d" 5, sigs := ["a"] } "d"
    { txn := mkTxn "d" 5, sigs := ["b"] } ["a", "b"] (by decide) (by decide)

/-! ### More store lemmas (for the garbage-collection and idempotence claims) -/

theorem mem_storeSet (s : Store) (k : String) (v : StagedTransaction)
    (p : String × StagedTransaction) (hp : p ∈ storeSet s k v) :
    (p ∈ s ∧ p.1 ≠ k) ∨ p = (k, v) := by
  unfold storeSet at hp
  split at hp
  · rw [List.mem_map] at hp
    obtain ⟨q, hq, hqp⟩ := hp
    by_cases hqk : q.1 == k
    · rw [if_pos hqk] at hqp
      exact Or.inr hqp.symm
    · rw [if_neg hqk] at hqp
      subst hqp
      exact Or.inl ⟨hq, by simpa using hqk⟩
  next hany =>
    rcases List.mem_append.mp hp with h1 | h1
    · refine Or.inl ⟨h1, ?_⟩
      intro hk
      exact hany (List.any_eq_true.mpr ⟨p, h1, by simpa using hk⟩)
    · exact Or.inr (by simpa using h1)

theorem storeSet_keys_nodup (s : Store) (k : String) (v : StagedTransaction)
    (h : (s.map Prod.fst).Nodup) :
    ((storeSet s k v).map Prod.fst).Nodup := by
  unfold storeSet
  split
  · have : (s.map (fun p => if p.1 == k then (k, v) else p)).map Prod.fst
        = s.map Prod.fst := by
      rw [List.map_map]
      refine List.map_congr_left ?_
      intro p _
      by_cases hpk : p.1 == k
      · rw [Function.comp_apply, if_pos hpk]
        simpa using (beq_iff_eq.mp hpk).symm
      · rw [Function.comp_apply, if_neg hpk]
    rw [this]
    exact h
  next hany =>
    rw [List.map_append, List.nodup_append]
    refine ⟨h, by simp, ?_⟩
    intro a ha hb
    simp only [List.map_cons, List.map_nil, List.mem_singleton] at hb
    subst hb
    rw [List.mem_map] at ha
    obtain ⟨p, hp, hpk⟩ := ha
    exact hany (List.any_eq_true.mpr ⟨p, hp, by simpa using hpk⟩)

theorem find_map_replace (s : Store) (k : String) (v : StagedTransaction)
    (hany : s.any (fun p => p.1 == k) = true) :
    (s.map (fun p => if p.1 == k then (k, v) else p)).find?
        (fun p => p.1 == k) = some (k, v) := by
  induction s with
  | nil => simp at hany
  | cons q rest ih =>
    by_cases hq : q.1 == k
    · rw [List.map_cons, if_pos hq]
      rw [List.find?_cons_of_pos _ (by simp)]
    · rw [List.map_cons, if_neg hq, List.find?_cons_of_neg _ (by simpa using hq)]
      rw [List.any_cons] at hany
      rcases Bool.or_eq_true_iff.mp hany with h1 | h1
      · exact absurd h1 hq
      · exact ih h1

theorem storeGet_storeSet_self (s : Store) (k : String)
    (v : StagedTransaction) : storeGet (storeSet s k v) k = some v := by
  unfold storeSet
  split
  next hany =>
    unfold storeGet
    rw [find_map_replace s k v hany]
    rfl
  next hany =>
    unfold storeGet
    rw [List.find?_append]
    have hnone : s.find? (fun p => p.1 == k) = none := by
      rw [List.find?_eq_none]
      intro p hp
      intro hpk
      exact hany (List.any_eq_true.mpr ⟨p, hp, hpk⟩)
    rw [hnone]
    simp

theorem storeGet_gcPass_of_get (cn : Int) (digest : String)
    (newTx : StagedTransaction) (l : Store) (v : StagedTransaction)
    (hget : storeGet l digest = some v) (hv : ¬ v.txn._nonce < cn) :
    storeGet (gcPass cn digest newTx l) digest = some v := by
  induction l with
  | nil => simp [storeGet] at hget
  | cons q rest ih =>
    by_cases hq : (q.1 == digest) = true
    · have hv' : q.2 = v := by
        unfold storeGet at hget
        rw [List.find?_cons] at hget
        simp only [hq] at hget
        simpa using hget
      subst hv'
      have hkeep : (!(decide (q.2.txn._nonce < cn) ||
          (!(q.1 == digest) && decide (q.2.txn = newTx.txn)))) = true := by
        simp [hq, hv]
      unfold gcPass
      rw [List.filter_cons]
      simp only [hkeep, if_true]
      unfold storeGet
      rw [List.find?_cons]
      simp only [hq]
      rfl
    · have hget' : storeGet rest digest = some v := by
        unfold storeGet at hget ⊢
        rw [List.find?_cons] at hget
        simp only [Bool.not_eq_true] at hq
        simp only [hq] at hget
        exact hget
      have ihr := ih hget'
      unfold gcPass at ihr ⊢
      rw [List.filter_cons]
      by_cases hkeep : (!(decide (q.2.txn._nonce < cn) ||
          (!(q.1 == digest) && decide (q.2.txn = newTx.txn)))) = true
      · simp only [hkeep, if_true]
        unfold storeGet
        rw [List.find?_cons]
        simp only [hq]
        exact ihr
      · simp only [Bool.not_eq_true] at hkeep
        simp only [hkeep, Bool.false_eq_true, if_false]
        exact ihr

theorem storeSet_eq_self (s : Store) (k : String) (v : StagedTransaction)
    (hget : storeGet s k = some v) (hkeys : (s.map Prod.fst).Nodup) :
    storeSet s k v = s := by
  induction s with
  | nil => simp [storeGet] at hget
  | cons q rest ih =>
    rw [List.map_cons, List.nodup_cons] at hkeys
    by_cases hq : (q.1 == k) = true
    · have hv' : q.2 = v := by
        unfold storeGet at hget
        rw [List.find?_cons] at hget
        simp only [hq] at hget
        simpa using hget
      have hqk : q.1 = k := beq_iff_eq.mp hq
      unfold storeSet
      rw [if_pos (by
        rw [List.any_cons]
        exact Bool.or_eq_true_iff.mpr (Or.inl hq))]
      rw [List.map_cons, if_pos hq]
      have hrest : rest.map (fun p => if p.1 == k then (k, v) else p) = rest := by
        have hcongr : rest.map (fun p => if p.1 == k then (k, v) else p)
            = rest.map id := by
          refine List.map_congr_left ?_
          intro p hp
          rw [if_neg]
          · rfl
          · intro hpk
            refine hkeys.1 ?_
            rw [hqk, ← beq_iff_eq.mp hpk]
            exact List.mem_map_of_mem Prod.fst hp
        rw [hcongr, List.map_id]
      rw [hrest, ← hv', ← hqk]
    · have hget' : storeGet rest k = some v := by
        unfold storeGet at hget ⊢
        rw [List.find?_cons] at hget
        simp only [Bool.not_eq_true] at hq
        simp only [hq] at hget
        exact hget
      have ihr := ih hget' hkeys.2
      unfold storeSet at ihr ⊢
      by_cases hany : rest.any (fun p => p.1 == k) = true
      · rw [if_pos (by
          rw [List.any_cons]
          exact Bool.or_eq_true_iff.mpr (Or.inr hany))]
        rw [if_pos hany] at ihr
        rw [List.map_cons, if_neg hq, ihr]
      · exfalso
        unfold storeGet at hget'
        rw [List.find?_eq_none.mpr (fun p hp hpk => by
          rw [List.any_eq_true] at hany
          exact hany ⟨p, hp, hpk⟩)] at hget'
        simp at hget'

/-! ### C4 -/

/-- C4: after every successful commit and its garbage-collection pass, no
staged entry in the namespace has nonce strictly below the current-nonce
snapshot taken before validation; staged transaction payloads are pairwise
distinct (at most one staged proposal per structurally-equal transaction,
given the store invariant that entries sit under their own digest); and when
the submitted nonce equals the snapshot, the just-written entry survives the
pass. -/
theorem gc_invariants (o : ChainOracle) (cn : Int) (s : Store)
    (req : StagedTransaction) (s2 : Store) (r : List StagedTransaction)
    (hInv : StoreInv o s)
    (h : stagePost o cn s req = (s2, .ok r)) :
    (∀ p ∈ s2, ¬ p.2.txn._nonce < cn) ∧
    (s2.map (fun p => p.2.txn)).Nodup ∧
    (req.txn._nonce = cn → ∃ digest v, o.digestOf req.txn = some digest ∧
      v.txn = req.txn ∧ storeGet s2 digest = some v) := by
  obtain ⟨digest, v, hcs, hdig, hvtxn, hchk, hs2, hr, hbr⟩ :=
    stagePost_ok_inv o cn s req s2 r h
  subst hs2
  obtain ⟨hkeys, hkinv⟩ := hInv
  have hkeys1 : ((storeSet s digest v).map Prod.fst).Nodup :=
    storeSet_keys_nodup s digest v hkeys
  have hkinv1 : ∀ p ∈ storeSet s digest v, o.digestOf p.2.txn = some p.1 := by
    intro p hp
    rcases mem_storeSet s digest v p hp with ⟨hps, _⟩ | hkv
    · exact hkinv p hps
    · subst hkv
      simpa [hvtxn] using hdig
  have hsub : (gcPass cn digest v (storeSet s digest v)).Sublist
      (storeSet s digest v) := gcPass_sublist _ _ _ _
  have hkeys2 : ((gcPass cn digest v (storeSet s digest v)).map Prod.fst).Nodup :=
    List.Nodup.sublist (hsub.map Prod.fst) hkeys1
  have hkinv2 : ∀ p ∈ gcPass cn digest v (storeSet s digest v),
      o.digestOf p.2.txn = some p.1 :=
    fun p hp => hkinv1 p (hsub.subset hp)
  refine ⟨?_, ?_, ?_⟩
  · intro p hp
    exact ((mem_gcPass _ _ _ _ p).mp hp).2.1
  · refine List.Nodup.map_on ?_ (List.Nodup.of_map Prod.fst hkeys2)
    intro p hp q hq heq
    have h1 := hkinv2 p hp
    have h2 := hkinv2 q hq
    rw [heq, h2] at h1
    have hk : p.1 = q.1 := by
      simpa using h1.symm
    exact List.inj_on_of_nodup_map hkeys2 hp hq hk
  · intro hcn
    refine ⟨digest, v, hdig, hvtxn, ?_⟩
    refine storeGet_gcPass_of_get cn digest v _ v
      (storeGet_storeSet_self s digest v) ?_
    rw [hvtxn, hcn]
    exact lt_irrefl cn

/-- C4 witness: staging nonce 6 on top of a staged nonce 5 (chain at
nonce 5) commits both entries, and the garbage-collection invariants hold of
the resulting namespace. -/
theorem gc_invariants_witness :
    (∀ p ∈ wStoreAB, ¬ p.2.txn._nonce < 5) ∧
    (wStoreAB.map (fun p => p.2.txn)).Nodup ∧
    (wReqB.txn._nonce = 5 → ∃ digest v, testOracle.digestOf wReqB.txn
        = some digest ∧ v.txn = wReqB.txn ∧ storeGet wStoreAB digest = some v) :=
  gc_invariants testOracle 5 wStoreA wReqB wStoreAB wRespAB
    ⟨by decide, by decide⟩ (by decide)

/-! ### C10 -/

/-- C10: when the digest already has a staged proposal, the nonce acceptance
rules are not applied — the call can never fail with the nonce-too-low or
nonce-gap errors — and whenever such a call succeeds with a proposal nonce
strictly below the current on-chain nonce, the garbage-collection pass
removes the just-committed entry: the digest is gone from the namespace and
the returned sequence contains no proposal with the submitted transaction. -/
theorem merge_branch_skips_nonce_rules (o : ChainOracle) (cn : Int)
    (s : Store) (req : StagedTransaction) (digest : String)
    (ex : StagedTransaction)
    (hcs : o.chainSupported = true)
    (hdig : o.digestOf req.txn = some digest)
    (hget : storeGet s digest = some ex) :
    ((stagePost o cn s req).2 ≠ .err .nonceTooLow ∧
      (stagePost o cn s req).2 ≠ .err .nonceGap) ∧
    (∀ s2 r, stagePost o cn s req = (s2, .ok r) → req.txn._nonce < cn →
      storeGet s2 digest = none ∧ ∀ t ∈ r, t.txn ≠ req.txn) := by
  constructor
  · unfold stagePost commitPhase
    simp only [hcs, hdig, hget, Bool.not_true, Bool.false_eq_true, if_false]
    split
    · simp
    · split
      · simp
      · split
        · simp
        · simp
  · intro s2 r h hlow
    obtain ⟨digest', v, _, hdig', hvtxn, _, hs2, hr, hbr⟩ :=
      stagePost_ok_inv o cn s req s2 r h
    rw [hdig] at hdig'
    obtain rfl : digest = digest' := by simpa using hdig'
    have hvlow : v.txn._nonce < cn := by
      rw [hvtxn]
      exact hlow
    subst hs2
    constructor
    · rw [storeGet_eq_none_iff]
      intro p hp hpk
      have hmem := (mem_gcPass _ _ _ _ p).mp hp
      rcases mem_storeSet s digest v p hmem.1 with ⟨_, hne⟩ | hkv
      · exact hne hpk
      · subst hkv
        exact hmem.2.1 hvlow
    · intro t ht
      rw [hr, postResponse_eq_values] at ht
      rw [List.mem_map] at ht
      obtain ⟨p, hp, hpt⟩ := ht
      subst hpt
      have hmem := (mem_gcPass _ _ _ _ p).mp hp
      intro htxn
      rcases hmem.2.2 with hk | hne
      · rcases mem_storeSet s digest v p hmem.1 with ⟨_, hne'⟩ | hkv
        · exact hne' hk
        · subst hkv
          exact hmem.2.1 hvlow
      · rw [hvtxn] at hne
        exact hne htxn

/-- C10 witness: with the chain at nonce 5 and a stale nonce-3 proposal
staged under digest "d", a second signature for that digest commits
successfully, the pass immediately deletes the entry, and the success
response is empty. -/
theorem merge_branch_skips_nonce_rules_witness :
    storeGet ([] : Store) "d" = none ∧
    (∀ t ∈ ([] : List StagedTransaction), t.txn ≠ wReqD3.txn) :=
  (merge_branch_skips_nonce_rules testOracle 5 wStoreD3 wReqD3 "d"
      { txn := mkTxn "d" 3, sigs := ["a"] } rfl rfl (by decide)).2
    [] [] (by decide) (by decide)

/-! ### C8 -/

/-- C8: staging the same (proposal, signature) pair twice is idempotent:
after a first successful staging of a fresh digest, resubmitting the
identical pair succeeds (no error) as a no-op — the namespace, including the
stored signature list for the digest, is exactly what the first call left. -/
theorem idempotent_restage (o : ChainOracle) (cn : Int) (s : Store)
    (txn : SafeTransaction) (sg : String) (digest k : String)
    (s1 : Store) (r1 : List StagedTransaction)
    (hcs : o.chainSupported = true)
    (hdig : o.digestOf txn = some digest)
    (hget : storeGet s digest = none)
    (hkeys : (s.map Prod.fst).Nodup)
    (hrec : recoverKey o digest sg = some k)
    (h1 : stagePost o cn s { txn := txn, sigs := [sg] } = (s1, .ok r1)) :
    storeGet s1 digest = some { txn := txn, sigs := [sg] } ∧
    stagePost o cn s1 { txn := txn, sigs := [sg] }
      = (s1, .ok (postResponse s1)) := by
  obtain ⟨digest', v, _, hdig', hvtxn, hchk, hs1, hr1, hbr⟩ :=
    stagePost_ok_inv o cn s { txn := txn, sigs := [sg] } s1 r1 h1
  rw [hdig] at hdig'
  obtain rfl : digest = digest' := by simpa using hdig'
  rcases hbr with ⟨_, hv, hlow, _⟩ | ⟨ex, merged, hex, _, _, _⟩
  swap
  · rw [hget] at hex
    exact absurd hex (by simp)
  subst hv
  subst hs1
  have hget1 : storeGet
      (gcPass cn digest { txn := txn, sigs := [sg] }
        (storeSet s digest { txn := txn, sigs := [sg] })) digest
      = some { txn := txn, sigs := [sg] } := by
    refine storeGet_gcPass_of_get cn digest _ _ _
      (storeGet_storeSet_self s digest { txn := txn, sigs := [sg] }) ?_
    exact hlow
  have hkeys1 : ((gcPass cn digest { txn := txn, sigs := [sg] }
      (storeSet s digest { txn := txn, sigs := [sg] })).map Prod.fst).Nodup :=
    List.Nodup.sublist ((gcPass_sublist _ _ _ _).map Prod.fst)
      (storeSet_keys_nodup s digest _ hkeys)
  refine ⟨hget1, ?_⟩
  have hm : mergeSigs o digest [sg] [sg] = some [sg] := by
    unfold mergeSigs
    have hu : jsUnion [sg] [sg] = [sg] := by
      simp [jsUnion, List.contains_cons]
    rw [hu, List.mapM_cons, List.mapM_nil, hrec]
    simp [sortPairs, stableInsert]
  have hgc : gcPass cn digest { txn := txn, sigs := [sg] }
      (gcPass cn digest { txn := txn, sigs := [sg] }
        (storeSet s digest { txn := txn, sigs := [sg] })) =
      gcPass cn digest { txn := txn, sigs := [sg] }
        (storeSet s digest { txn := txn, sigs := [sg] }) := by
    unfold gcPass
    rw [List.filter_eq_self]
    intro p hp
    have hmem := (mem_gcPass _ _ _ _ p).mp hp
    simp only [Bool.not_eq_true', Bool.or_eq_false_iff,
      decide_eq_false_iff_not, Bool.and_eq_false_iff]
    refine ⟨hmem.2.1, ?_⟩
    rcases hmem.2.2 with hk | ht
    · left
      simp [hk]
    · right
      simpa using ht
  unfold stagePost
  simp only [hcs, Bool.not_true, Bool.false_eq_true, if_false, hdig, hget1, hm]
  rw [if_neg (by simp [MAX_SIGS])]
  unfold commitPhase
  rw [if_pos hchk]
  rw [storeSet_eq_self _ digest { txn := txn, sigs := [sg] } hget1 hkeys1]
  rw [hgc]

/-- C8 witness: staging (proposal at nonce 5, signature "s") on an empty
namespace and then staging the identical pair again succeeds and leaves the
namespace — one entry with the single signature "s" — unchanged. -/
theorem idempotent_restage_witness :
    storeGet wStoreA "a" = some { txn := mkTxn "a" 5, sigs := ["s"] } ∧
    stagePost testOracle 5 wStoreA { txn := mkTxn "a" 5, sigs := ["s"] }
      = (wStoreA, .ok (postResponse wStoreA)) :=
  idempotent_restage testOracle 5 [] (mkTxn "a" 5) "s" "a" "[111]"
    wStoreA [{ txn := mkTxn "a" 5, sigs := ["s"] }]
    rfl rfl (by decide) (by decide) (by decide) (by decide)

/-! ### C9 -/

/-- C9 counterexample: a signature on which recovery throws makes the call
fail through the catch-all handler — HTTP 500 "unexpected error", the same
opaque internal-fault response as any unexpected exception — rather than any
distinct malformed-signature error; indeed the handler has no such response
(the error type of the model enumerates every response body in the source). The
store is left unchanged. -/
theorem malformed_signature_counterexample :
    recoverKey badSigOracle "d" "bad" = none ∧
    stagePost badSigOracle 5 [("d", { txn := mkTxn "d" 5, sigs := ["good"] })]
        { txn := mkTxn "d" 5, sigs := ["bad"] }
      = ([("d", { txn := mkTxn "d" 5, sigs := ["good"] })],
         .err .internalError) := by decide

/-- C9 amended: in the merge branch (the only path that recovers signers —
the signatures of a first submission are never recovered), a signature anywhere in
the union on which recovery fails aborts the whole call before the merge is
committed, with the opaque internal-error response (the outer catch at source
lines 218-221), not a distinct malformed-signature error; the namespace is
left unchanged. -/
theorem recovery_failure_internal_error (o : ChainOracle) (cn : Int)
    (s : Store) (req : StagedTransaction) (digest : String)
    (ex : StagedTransaction)
    (hcs : o.chainSupported = true)
    (hdig : o.digestOf req.txn = some digest)
    (hget : storeGet s digest = some ex)
    (hfail : ∃ sg ∈ jsUnion req.sigs ex.sigs, recoverKey o digest sg = none) :
    stagePost o cn s req = (s, .err .internalError) := by
  have hm : mergeSigs o digest req.sigs ex.sigs = none := by
    unfold mergeSigs
    rw [mapM_keyed_none o digest _ hfail]
  unfold stagePost
  simp [hcs, hdig, hget, hm]

/-- C9 witness: concrete instance of the amended rule — one staged good
signature, one incoming signature whose recovery fails, internal error, store
unchanged. -/
theorem recovery_failure_internal_error_witness :
    stagePost badSigOracle 7 [("e", { txn := mkTxn "e" 7, sigs := ["g"] })]
        { txn := mkTxn "e" 7, sigs := ["b"] }
      = ([("e", { txn := mkTxn "e" 7, sigs := ["g"] })], .err .internalError) :=
  recovery_failure_internal_error badSigOracle 7
    [("e", { txn := mkTxn "e" 7, sigs := ["g"] })]
    { txn := mkTxn "e" 7, sigs := ["b"] } "e"
    { txn := mkTxn "e" 7, sigs := ["g"] } rfl rfl (by decide)
    ⟨"b", by decide, by decide⟩
